import Mathlib

/-!
Shallow embedding of the ipl_polls leaderboard pipeline: the weekly match
aggregator and ranker (src/scripts/2-generate_weekly_leaderboard.py), the
season leaderboard with rank movement and snapshot handling
(src/scripts/4-generate_overall_leaderboard.py), and the streak analyzer
(src/scripts/7-generate_winners_list.py).  Python floats are modelled as
rationals; a CSV points field read with a try/except coercion is modelled as
an optional rational, with none standing for a missing or unparseable field.
-/

namespace Weekly

/-- Result of the Python read `float(row.get("Points", "0"))` with a
ValueError coerced to 0.0 (2-generate_weekly_leaderboard.py, lines 82-85):
the field is none when missing or unparseable, some q when it parses to q. -/
def parsePoints : Option ℚ → ℚ
  | none => 0
  | some q => q

/-- The scan of calculate_ranks (2-generate_weekly_leaderboard.py, lines
23-38) over the scores column of the sorted leaderboard, carrying the index,
the current standard rank, the current dense rank and the previous score;
returns the (Standard Rank, Dense Rank) pair for each entry. -/
def ranksAux (i curRank denseRank : ℕ) (prev : Option ℚ) : List ℚ → List (ℕ × ℕ)
  | [] => []
  | p :: rest =>
    let bump : Bool := match prev with
      | none => false
      | some q => decide (p < q)
    let curRank' := if bump then i + 1 else curRank
    let denseRank' := if bump then denseRank + 1 else denseRank
    (curRank', denseRank') :: ranksAux (i + 1) curRank' denseRank' (some p) rest

/-- calculate_ranks from 2-generate_weekly_leaderboard.py, restricted to the
scores column (the only field the ranking logic reads). -/
def calculate_ranks (scores : List ℚ) : List (ℕ × ℕ) :=
  ranksAux 0 1 1 none scores

/-- Specification-side ranking rule, written from the words of the claim:
after the first entry, an entry whose score is strictly less than the
previous score gets standard rank equal to its 1-based position and dense
rank one more than the previous dense rank; otherwise both ranks are copied
from the previous entry.  pos is the 0-based position of the current entry. -/
def specRanksAux (pos : ℕ) (prevScore : ℚ) (prevStd prevDense : ℕ) :
    List ℚ → List (ℕ × ℕ)
  | [] => []
  | p :: rest =>
    let r : ℕ × ℕ :=
      if p < prevScore then (pos + 1, prevDense + 1) else (prevStd, prevDense)
    r :: specRanksAux (pos + 1) p r.1 r.2 rest

/-- Specification-side ranking of a whole list: the first entry gets standard
rank 1 and dense rank 1, the rest follow specRanksAux. -/
def specRanks : List ℚ → List (ℕ × ℕ)
  | [] => []
  | p :: rest => (1, 1) :: specRanksAux 1 p 1 1 rest

/-- One row of a per-match CSV as read by combine_csv_files (lines 78-85):
Username, Display Name, Team Voted Short, and the optional points field. -/
structure Row where
  username : String
  display : String
  team : String
  points : Option ℚ
deriving DecidableEq

/-- One match file: its list of rows. -/
abbrev MatchFile := List Row

/-- Per-user accumulated record of combine_csv_files: the Display Name, the
running Total_Points, and the Match_n columns.  The source always sets the
Match_n_Team_Short and Match_n_Points keys together (lines 88-89 and 96-97),
so the two columns are modelled as one optional pair. -/
structure UserData where
  display : String
  total : ℚ
  matchCol : ℕ → Option (String × ℚ)

/-- The defaultdict initial record: Total_Points 0.0 and no match columns. -/
def defaultUD : UserData := ⟨"", 0, fun _ => none⟩

/-- State of the combine loop: all_usernames and the user_data mapping. -/
structure CState where
  seen : List String
  data : String → UserData

/-- Initial combine state: empty all_usernames, defaultdict user_data. -/
def initState : CState := ⟨[], fun _ => defaultUD⟩

/-- Effect of one CSV row of match n (lines 87-90): set Display Name, set the
Match_n column pair, and add the parsed points into Total_Points. -/
def applyRow (n : ℕ) (r : Row) (d : UserData) : UserData :=
  { display := r.display
    total := d.total + parsePoints r.points
    matchCol := fun k =>
      if k = n then some (r.team, parsePoints r.points) else d.matchCol k }

/-- One row of the row loop: only the entry of the rows username changes. -/
def stepRow (n : ℕ) (st : CState) (r : Row) : CState :=
  { seen := st.seen
    data := fun u =>
      if u = r.username then applyRow n r (st.data u) else st.data u }

/-- Backfill of a missing Match_n column pair (lines 96-97): team "---",
points 0.0; Total_Points is not changed. -/
def fillCol (n : ℕ) (d : UserData) : UserData :=
  { d with matchCol := fun k =>
      if k = n then some ("---", 0) else d.matchCol k }

/-- Processing of one match file as match number n (lines 77-99): run the
row loop, extend all_usernames with the usernames of this match, then give
every known user whose Match_n columns are still missing the default pair. -/
def processMatch (n : ℕ) (st : CState) (m : MatchFile) : CState :=
  let st1 := m.foldl (stepRow n) st
  let seen2 := st1.seen ++ (m.map Row.username).filter (fun v => decide (v ∉ st1.seen))
  { seen := seen2
    data := fun u =>
      if u ∈ seen2 then
        if (st1.data u).matchCol n = none then fillCol n (st1.data u)
        else st1.data u
      else st1.data u }

/-- The match loop of combine_csv_files, starting at match number n. -/
def combineAux (n : ℕ) (st : CState) : List MatchFile → CState
  | [] => st
  | m :: rest => combineAux (n + 1) (processMatch n st m) rest

/-- combine_csv_files over the (successfully parsed) match files of a week,
numbered from 1, producing the final per-user data. -/
def combineState (ms : List MatchFile) : CState := combineAux 1 initState ms

/-- The points value a row shows for sub-period i: the stored Match_i points
when the column exists, 0 otherwise. -/
def colPoints (d : UserData) (i : ℕ) : ℚ :=
  match d.matchCol i with
  | some (_, q) => q
  | none => 0

end Weekly

namespace Overall

/-- One input entry of the season ranker: Username and the Total column
(4-generate_overall_leaderboard.py, lines 191-203). -/
structure OEntry where
  username : String
  total : ℚ
deriving DecidableEq

/-- One ranked output entry: ranks and the two movement strings
(4-generate_overall_leaderboard.py, lines 49-78). -/
structure ROEntry where
  username : String
  total : ℚ
  stdRank : ℕ
  denseRank : ℕ
  denseMv : String
  stdMv : String
deriving DecidableEq

/-- A rank snapshot: association list username to (dense, standard),
modelling the JSON mapping written at lines 206-213. -/
abbrev Snap := List (String × ℕ × ℕ)

/-- Rendering of a rank movement value (lines 65-74): an up arrow with the
magnitude when positive, a down arrow with the magnitude when negative, an
em dash when zero. -/
def renderMovement (mv : ℤ) : String :=
  if 0 < mv then "↑" ++ toString mv
  else if mv < 0 then "↓" ++ toString (-mv)
  else "—"

/-- Movement pair (dense movement string, standard movement string) for one
user (lines 57-77): a user present in the previous snapshot gets the
rendered differences previous minus current; a user absent from it gets the
new-entrant indicator N for both schemes. -/
def movementFor (prev : Snap) (u : String) (stdRank denseRank : ℕ) :
    String × String :=
  match prev.lookup u with
  | some (pd, ps) =>
      (renderMovement ((pd : ℤ) - (denseRank : ℤ)),
       renderMovement ((ps : ℤ) - (stdRank : ℤ)))
  | none => ("N", "N")

/-- The scan of calculate_ranks in 4-generate_overall_leaderboard.py (lines
44-81): the same rank scan as the weekly script plus the movement fields. -/
def calcRanksMvAux (prev : Snap) (i curStd curDense : ℕ) (prevPts : Option ℚ) :
    List OEntry → List ROEntry
  | [] => []
  | e :: rest =>
    let bump : Bool := match prevPts with
      | none => false
      | some q => decide (e.total < q)
    let std' := if bump then i + 1 else curStd
    let dense' := if bump then curDense + 1 else curDense
    let mv := movementFor prev e.username std' dense'
    ⟨e.username, e.total, std', dense', mv.1, mv.2⟩ ::
      calcRanksMvAux prev (i + 1) std' dense' (some e.total) rest

/-- calculate_ranks of the season script on a sorted leaderboard. -/
def calculate_ranks_mv (prev : Snap) (lb : List OEntry) : List ROEntry :=
  calcRanksMvAux prev 0 1 1 none lb

/-- Loading of the previous snapshot (lines 111-120): an absent file or one
that fails to parse both leave prev_ranks empty; none models either case. -/
def loadPrevRanks : Option Snap → Snap
  | none => []
  | some s => s

/-- Tail of generate_leaderboard (lines 204-213): rank the sorted
leaderboard against the loaded snapshot and write the current ranks as the
new snapshot. -/
def runOverall (maybePrev : Option Snap) (lb : List OEntry) :
    List ROEntry × Snap :=
  let ranked := calculate_ranks_mv (loadPrevRanks maybePrev) lb
  (ranked, ranked.map (fun e => (e.username, (e.denseRank, e.stdRank))))

/-- One season row (lines 193-201): for each column in order take the stored
value with default 0.0, keeping a running total; returns the labelled column
values and the Total field. -/
def buildSeasonEntry (cols : List String) (get : String → Option ℚ) :
    List (String × ℚ) × ℚ :=
  (cols.map (fun c => (c, (get c).getD 0)),
   cols.foldl (fun t c => t + (get c).getD 0) 0)

/-- Modelled file states of the snapshot write at lines 212-213 of
4-generate_overall_leaderboard.py: json.dump into a file opened with mode w.
Step 0 is before the open; step 1 is after the open has truncated the file
in place; step 2 and later is after the dump completed. -/
def snapshotWriteStates (old : Option String) (new : String) : ℕ → Option String :=
  fun k => if k = 0 then old else if k = 1 then some "" else some new

end Overall

namespace Winners

/-- One row of a per-match winner-poll CSV as read by
7-generate_winners_list.py (Username, Points); reading is via a direct
float conversion with no coercion, so the points are a plain rational. -/
abbrev SMatch := List (String × ℚ)

/-- is_washed_out_match (lines 63-75): every recorded points value is zero
and at least one record exists. -/
def is_washed_out_match (m : SMatch) : Bool :=
  m.all (fun r => decide (r.2 = 0)) && !m.isEmpty

/-- The outcome entries one match contributes to the sequence of user u:
one entry some points per row of u (lines 114-120 append once per row). -/
def matchEntries (m : SMatch) (u : String) : List (Option ℚ) :=
  (m.filter (fun r => r.1 == u)).map (fun r => some r.2)

/-- Effect of one (non washed-out) match on the streak sequence of user u
(lines 111-125): a participant appends their recorded entries; a
non-participant already holding entries appends a none marker; a user never
seen before gets nothing. -/
def stepSeq (u : String) (acc : List (Option ℚ)) (m : SMatch) : List (Option ℚ) :=
  let es := matchEntries m u
  if es.isEmpty then (if acc.isEmpty then acc else acc ++ [none]) else acc ++ es

/-- Per-user projection of the streaks mapping built by get_winning_streak
and get_losing_streak (lines 106-125 and 206-225): washed-out matches are
skipped before any appending happens, then each match steps the sequence. -/
def buildSeq (ms : List SMatch) (u : String) : List (Option ℚ) :=
  ms.foldl (fun acc m => if is_washed_out_match m then acc else stepSeq u acc m) []

/-- State of the per-user streak scan (lines 132-137): current run length,
best run length, current run start index, best start index, best end index. -/
structure ScanSt where
  cur : ℕ
  mx : ℕ
  start : ℕ
  bs : ℕ
  be : ℕ
deriving DecidableEq

/-- One step of the winning-streak scan (lines 138-150): a none entry resets
the run; positive points extend it and update the best run when strictly
longer; zero or negative points reset it. -/
def winStep (st : ScanSt) (idx : ℕ) (v : Option ℚ) : ScanSt :=
  match v with
  | none => { st with cur := 0 }
  | some p =>
    if 0 < p then
      let start' := if st.cur = 0 then idx else st.start
      let cur' := st.cur + 1
      if st.mx < cur' then ⟨cur', cur', start', start', idx⟩
      else ⟨cur', st.mx, start', st.bs, st.be⟩
    else { st with cur := 0 }

/-- One step of the losing-streak scan (lines 236-248): a none entry resets
the run; zero points extend it and update the best run when strictly longer;
any nonzero points reset it. -/
def loseStep (st : ScanSt) (idx : ℕ) (v : Option ℚ) : ScanSt :=
  match v with
  | none => { st with cur := 0 }
  | some p =>
    if p = 0 then
      let start' := if st.cur = 0 then idx else st.start
      let cur' := st.cur + 1
      if st.mx < cur' then ⟨cur', cur', start', start', idx⟩
      else ⟨cur', st.mx, start', st.bs, st.be⟩
    else { st with cur := 0 }

/-- The enumerate loop of either streak scan, from index idx. -/
def scanFrom (step : ScanSt → ℕ → Option ℚ → ScanSt) (idx : ℕ) (st : ScanSt) :
    List (Option ℚ) → ScanSt
  | [] => st
  | v :: rest => scanFrom step (idx + 1) (step st idx v) rest

/-- The reported longest winning run of one user: the best-run field after
scanning the whole outcome sequence from the zero state. -/
def winStreakLen (votes : List (Option ℚ)) : ℕ :=
  (scanFrom winStep 0 ⟨0, 0, 0, 0, 0⟩ votes).mx

/-- The reported longest losing run of one user. -/
def loseStreakLen (votes : List (Option ℚ)) : ℕ :=
  (scanFrom loseStep 0 ⟨0, 0, 0, 0, 0⟩ votes).mx

/-- Qualifying outcome of the winning scan: present with positive points. -/
def qualWin : Option ℚ → Bool
  | none => false
  | some p => decide (0 < p)

/-- Qualifying outcome of the losing scan: present with zero points. -/
def qualLose : Option ℚ → Bool
  | none => false
  | some p => decide (p = 0)

/-- Length-only restatement of either scan, carrying only the current run
length and the best run length. -/
def simpleScan (qual : Option ℚ → Bool) : List (Option ℚ) → ℕ → ℕ → ℕ
  | [], _, mx => mx
  | v :: rest, cur, mx =>
    if qual v then simpleScan qual rest (cur + 1) (max mx (cur + 1))
    else simpleScan qual rest 0 mx

/-- Length of the qualifying block at the head of a sequence. -/
def leadRun (qual : Option ℚ → Bool) (l : List (Option ℚ)) : ℕ :=
  (l.takeWhile qual).length

/-- Specification-side longest run, written from the words of the claim: the
maximum, over all positions, of the contiguous qualifying block starting
there, that is the maximum contiguous block of qualifying entries between
resets. -/
def maxRunSpec (qual : Option ℚ → Bool) : List (Option ℚ) → ℕ
  | [] => 0
  | v :: rest => max (leadRun qual (v :: rest)) (maxRunSpec qual rest)

end Winners

section RankerProofs

/-- The implementation scan and the specification scan agree once the first
entry has been consumed. -/
lemma ranksAux_eq_spec (rest : List ℚ) : ∀ (i c d : ℕ) (p : ℚ),
    Weekly.ranksAux i c d (some p) rest = Weekly.specRanksAux i p c d rest := by
  induction rest with
  | nil => intro i c d p; rfl
  | cons q rest ih =>
    intro i c d p
    by_cases h : q < p
    · simp [Weekly.ranksAux, Weekly.specRanksAux, h, ih]
    · simp [Weekly.ranksAux, Weekly.specRanksAux, h, ih]

/-- C1: for every non-empty list of scores pre-sorted descending, the ranker
calculate_ranks assigns both rank fields exactly as the single left-to-right
specification scan specRanks does: the first entry gets standard rank 1 and
dense rank 1; a score strictly below the previous one gets standard rank
equal to its 1-based position and dense rank one more than the previous
dense rank; otherwise both ranks equal the previous ranks. -/
theorem C1_ranker_scan (scores : List ℚ) (hs : scores.Sorted (· ≥ ·))
    (hne : scores ≠ []) :
    Weekly.calculate_ranks scores = Weekly.specRanks scores := by
  cases scores with
  | nil => exact absurd rfl hne
  | cons p rest =>
    show Weekly.ranksAux 0 1 1 none (p :: rest) = _
    simp [Weekly.ranksAux, Weekly.specRanks, ranksAux_eq_spec]

/-- Witness for C1 at the example of the specification: scores
[10, 10, 7, 5, 5, 5] give standard ranks [1,1,3,4,4,4] and dense ranks
[1,1,2,3,3,3]. -/
theorem C1_ranker_scan_witness :
    Weekly.calculate_ranks [10, 10, 7, 5, 5, 5] =
      Weekly.specRanks [10, 10, 7, 5, 5, 5] ∧
    Weekly.specRanks [10, 10, 7, 5, 5, 5] =
      [(1, 1), (1, 1), (3, 2), (4, 3), (4, 3), (4, 3)] :=
  ⟨C1_ranker_scan [10, 10, 7, 5, 5, 5] (by decide) (by decide), by decide⟩

end RankerProofs

section StreakProofs

/-- The best-run field of the full winning scan ignores the index bookkeeping:
it equals the length-only scan. -/
lemma scanFrom_win_mx : ∀ (votes : List (Option ℚ)) (idx : ℕ) (st : Winners.ScanSt),
    (Winners.scanFrom Winners.winStep idx st votes).mx =
      Winners.simpleScan Winners.qualWin votes st.cur st.mx := by
  intro votes
  induction votes with
  | nil => intro idx st; rfl
  | cons v rest ih =>
    intro idx st
    cases v with
    | none =>
      show (Winners.scanFrom Winners.winStep (idx + 1) _ rest).mx = _
      rw [ih]
      simp [Winners.winStep, Winners.simpleScan, Winners.qualWin]
    | some p =>
      show (Winners.scanFrom Winners.winStep (idx + 1)
        (Winners.winStep st idx (some p)) rest).mx = _
      rw [ih]
      by_cases h : 0 < p
      · by_cases h2 : st.mx < st.cur + 1
        · simp only [Winners.winStep, Winners.simpleScan, Winners.qualWin, h,
            if_true, h2, decide_true_eq_true]
          have : max st.mx (st.cur + 1) = st.cur + 1 := by omega
          simp [h, h2, this]
        · simp only [Winners.winStep, Winners.simpleScan, Winners.qualWin]
          have : max st.mx (st.cur + 1) = st.mx := by omega
          simp [h, h2, this]
      · simp [Winners.winStep, Winners.simpleScan, Winners.qualWin, h]

/-- The best-run field of the full losing scan equals the length-only scan. -/
lemma scanFrom_lose_mx : ∀ (votes : List (Option ℚ)) (idx : ℕ) (st : Winners.ScanSt),
    (Winners.scanFrom Winners.loseStep idx st votes).mx =
      Winners.simpleScan Winners.qualLose votes st.cur st.mx := by
  intro votes
  induction votes with
  | nil => intro idx st; rfl
  | cons v rest ih =>
    intro idx st
    cases v with
    | none =>
      show (Winners.scanFrom Winners.loseStep (idx + 1) _ rest).mx = _
      rw [ih]
      simp [Winners.loseStep, Winners.simpleScan, Winners.qualLose]
    | some p =>
      show (Winners.scanFrom Winners.loseStep (idx + 1)
        (Winners.loseStep st idx (some p)) rest).mx = _
      rw [ih]
      by_cases h : p = 0
      · by_cases h2 : st.mx < st.cur + 1
        · simp only [Winners.loseStep, Winners.simpleScan, Winners.qualLose]
          have : max st.mx (st.cur + 1) = st.cur + 1 := by omega
          simp [h, h2, this]
        · simp only [Winners.loseStep, Winners.simpleScan, Winners.qualLose]
          have : max st.mx (st.cur + 1) = st.mx := by omega
          simp [h, h2, this]
      · simp [Winners.loseStep, Winners.simpleScan, Winners.qualLose, h]

/-- The block at the head never exceeds the overall longest block. -/
lemma leadRun_le_maxRunSpec (qual : Option ℚ → Bool) (l : List (Option ℚ)) :
    Winners.leadRun qual l ≤ Winners.maxRunSpec qual l := by
  cases l with
  | nil => simp [Winners.leadRun, Winners.maxRunSpec]
  | cons v rest => exact le_max_left _ _

/-- Closed form of the length-only scan: the final best run is the maximum
of the incoming best, the head block extended by the incoming run when it is
nonempty, and the longest block of the remaining sequence. -/
lemma simpleScan_eq (qual : Option ℚ → Bool) : ∀ (l : List (Option ℚ)) (cur mx : ℕ),
    Winners.simpleScan qual l cur mx =
      max mx (max (if Winners.leadRun qual l = 0 then 0
                   else cur + Winners.leadRun qual l)
                  (Winners.maxRunSpec qual l)) := by
  intro l
  induction l with
  | nil => intro cur mx; simp [Winners.simpleScan, Winners.leadRun, Winners.maxRunSpec]
  | cons v rest ih =>
    intro cur mx
    have hle : Winners.leadRun qual rest ≤ Winners.maxRunSpec qual rest :=
      leadRun_le_maxRunSpec qual rest
    have hms : Winners.maxRunSpec qual (v :: rest) =
        max (Winners.leadRun qual (v :: rest)) (Winners.maxRunSpec qual rest) := rfl
    by_cases hq : qual v = true
    · have hlr : Winners.leadRun qual (v :: rest) = Winners.leadRun qual rest + 1 := by
        simp [Winners.leadRun, List.takeWhile, hq]
      have h1 : Winners.simpleScan qual (v :: rest) cur mx =
          Winners.simpleScan qual rest (cur + 1) (max mx (cur + 1)) := by
        simp [Winners.simpleScan, hq]
      rw [h1, ih (cur + 1) (max mx (cur + 1)), hms, hlr]
      clear h1 hms hlr ih
      simp only [Nat.max_def]
      split_ifs <;> first | contradiction | omega
    · have hlr : Winners.leadRun qual (v :: rest) = 0 := by
        simp [Winners.leadRun, List.takeWhile, hq]
      have h1 : Winners.simpleScan qual (v :: rest) cur mx =
          Winners.simpleScan qual rest 0 mx := by
        simp [Winners.simpleScan, hq]
      rw [h1, ih 0 mx, hms, hlr]
      by_cases h0 : Winners.leadRun qual rest = 0
      · simp [h0]
      · rw [if_neg h0]
        simp [Nat.max_eq_right hle]

/-- From the zero state the length-only scan computes exactly the longest
contiguous qualifying block. -/
lemma simpleScan_spec (qual : Option ℚ → Bool) (l : List (Option ℚ)) :
    Winners.simpleScan qual l 0 0 = Winners.maxRunSpec qual l := by
  rw [simpleScan_eq]
  have hle := leadRun_le_maxRunSpec qual l
  by_cases h0 : Winners.leadRun qual l = 0
  · simp [h0]
  · simp only [if_neg h0]
    omega

/-- C2: in both streak scans an absent entry resets the current run to zero
and an entry of the opposite qualifying outcome resets it too, and the
reported longest run equals the maximum contiguous block of qualifying
entries between resets; in particular the sequence win, win, absent, win,
win, win yields longest winning run 3. -/
theorem C2_streak_reset_law :
    (∀ votes, Winners.winStreakLen votes = Winners.maxRunSpec Winners.qualWin votes) ∧
    (∀ votes, Winners.loseStreakLen votes = Winners.maxRunSpec Winners.qualLose votes) ∧
    (∀ st idx, (Winners.winStep st idx none).cur = 0 ∧
               (Winners.winStep st idx (some 0)).cur = 0 ∧
               (Winners.loseStep st idx none).cur = 0 ∧
               (∀ p : ℚ, 0 < p → (Winners.loseStep st idx (some p)).cur = 0)) ∧
    Winners.winStreakLen [some 1, some 1, none, some 1, some 1, some 1] = 3 := by
  refine ⟨?_, ?_, ?_, by decide⟩
  · intro votes
    rw [Winners.winStreakLen, scanFrom_win_mx]
    exact simpleScan_spec _ _
  · intro votes
    rw [Winners.loseStreakLen, scanFrom_lose_mx]
    exact simpleScan_spec _ _
  · intro st idx
    refine ⟨rfl, ?_, rfl, ?_⟩
    · simp [Winners.winStep]
    · intro p hp
      simp [Winners.loseStep, hp.ne']

/-- Witness for C2: a positive-points entry resets the losing streak scan. -/
theorem C2_streak_reset_law_witness :
    (Winners.loseStep ⟨0, 0, 0, 0, 0⟩ 0 (some 1)).cur = 0 :=
  (C2_streak_reset_law.2.2.1 ⟨0, 0, 0, 0, 0⟩ 0).2.2.2 1 (by norm_num)

end StreakProofs

section MovementProofs

/-- A one-character string followed by anything never equals the one-character
string N unless the head itself is N. -/
lemma one_char_append_ne_new (a s : String) (ha : a.length = 1) (hne : a ≠ "N") :
    a ++ s ≠ "N" := by
  intro h
  have hlen := congrArg String.length h
  rw [String.length_append] at hlen
  have hs : s.length = 0 := by
    have : ("N" : String).length = 1 := by decide
    omega
  have hs' : s = "" := by
    cases s with
    | mk l =>
      cases l with
      | nil => rfl
      | cons c cs => simp [String.length] at hs
  subst hs'
  rw [String.append_empty] at h
  exact hne h

/-- The rendered movement string is never the new-entrant indicator N. -/
lemma renderMovement_ne_new (mv : ℤ) : Overall.renderMovement mv ≠ "N" := by
  rw [Overall.renderMovement]
  split_ifs with h1 h2
  · exact one_char_append_ne_new "↑" _ (by decide) (by decide)
  · exact one_char_append_ne_new "↓" _ (by decide) (by decide)
  · decide

/-- Every entry produced by the season rank scan carries exactly the movement
pair computed by movementFor from its own username and its own two ranks. -/
lemma calcRanksMvAux_mv (prev : Overall.Snap) : ∀ (l : List Overall.OEntry)
    (i c d : ℕ) (pp : Option ℚ) (e : Overall.ROEntry),
    e ∈ Overall.calcRanksMvAux prev i c d pp l →
    (e.denseMv, e.stdMv) =
      Overall.movementFor prev e.username e.stdRank e.denseRank := by
  intro l
  induction l with
  | nil => intro i c d pp e h; cases h
  | cons hd tl ih =>
    intro i c d pp e h
    simp only [Overall.calcRanksMvAux] at h
    rcases List.mem_cons.mp h with he | he
    · subst he; rfl
    · exact ih _ _ _ _ _ he

/-- C5: every entry of the ranked output renders its movement from
previous minus current independently per scheme: a user found in the
previous snapshot gets renderMovement of the dense and standard deltas, a
user absent from it gets the indicator N for both; rendering is an up arrow
with the magnitude for positive movement, a down arrow with the magnitude
for negative movement, the neutral dash for zero; and no numeric rendering
ever equals the new-entrant indicator. -/
theorem C5_rank_movement :
    (∀ (prev : Overall.Snap) (lb : List Overall.OEntry) (e : Overall.ROEntry),
       e ∈ Overall.calculate_ranks_mv prev lb →
       ((prev.lookup e.username = none → e.denseMv = "N" ∧ e.stdMv = "N") ∧
        ∀ pd ps, prev.lookup e.username = some (pd, ps) →
          e.denseMv = Overall.renderMovement ((pd : ℤ) - (e.denseRank : ℤ)) ∧
          e.stdMv = Overall.renderMovement ((ps : ℤ) - (e.stdRank : ℤ)))) ∧
    (∀ mv : ℤ, 0 < mv → Overall.renderMovement mv = "↑" ++ toString mv) ∧
    (∀ mv : ℤ, mv < 0 → Overall.renderMovement mv = "↓" ++ toString (-mv)) ∧
    Overall.renderMovement 0 = "—" ∧
    (∀ mv : ℤ, Overall.renderMovement mv ≠ "N") := by
  refine ⟨?_, ?_, ?_, by decide, renderMovement_ne_new⟩
  · intro prev lb e he
    have h := calcRanksMvAux_mv prev lb 0 1 1 none e he
    constructor
    · intro hn
      simp only [Overall.movementFor, hn] at h
      exact ⟨congrArg Prod.fst h, congrArg Prod.snd h⟩
    · intro pd ps hs
      simp only [Overall.movementFor, hs] at h
      exact ⟨congrArg Prod.fst h, congrArg Prod.snd h⟩
  · intro mv h
    rw [Overall.renderMovement, if_pos h]
  · intro mv h
    rw [Overall.renderMovement, if_neg (by omega), if_pos h]

/-- Witness for C5 on a two-entry leaderboard with a one-entry snapshot: the
new entrant renders as N for both schemes, and a positive movement renders
as an up arrow with the magnitude. -/
theorem C5_rank_movement_witness :
    ((Overall.ROEntry.mk "b" 3 2 2 "N" "N").denseMv = "N" ∧
     (Overall.ROEntry.mk "b" 3 2 2 "N" "N").stdMv = "N") ∧
    Overall.renderMovement 1 = "↑" ++ toString (1 : ℤ) :=
  ⟨(C5_rank_movement.1 [("a", (2, 3))] [⟨"a", 5⟩, ⟨"b", 3⟩]
      (Overall.ROEntry.mk "b" 3 2 2 "N" "N") (by decide)).1 (by decide),
   C5_rank_movement.2.1 1 (by decide)⟩

/-- The season rank scan produces one output entry per input entry. -/
lemma calcRanksMvAux_length (prev : Overall.Snap) : ∀ (l : List Overall.OEntry)
    (i c d : ℕ) (pp : Option ℚ),
    (Overall.calcRanksMvAux prev i c d pp l).length = l.length := by
  intro l
  induction l with
  | nil => intro i c d pp; rfl
  | cons hd tl ih =>
    intro i c d pp
    simp only [Overall.calcRanksMvAux, List.length_cons, ih]

/-- C7: when the previous snapshot is absent or fails to parse (both leave
the loaded snapshot empty, modelled by the none argument), the run still
produces the ranked rows, every row degrades to the new-entrant indicator N
for both schemes, and the current snapshot is still written, holding exactly
the dense and standard ranks of every ranked row. -/
theorem C7_snapshot_fallback : ∀ lb : List Overall.OEntry,
    (∀ e ∈ (Overall.runOverall none lb).1, e.denseMv = "N" ∧ e.stdMv = "N") ∧
    (Overall.runOverall none lb).2 =
      ((Overall.runOverall none lb).1).map
        (fun e => (e.username, (e.denseRank, e.stdRank))) ∧
    (Overall.runOverall none lb).2.length = lb.length := by
  intro lb
  refine ⟨?_, rfl, ?_⟩
  · intro e he
    have h := calcRanksMvAux_mv [] lb 0 1 1 none e he
    have hnil : ∀ u : String, ([] : Overall.Snap).lookup u = none := fun _ => rfl
    simp only [Overall.movementFor, hnil] at h
    exact ⟨congrArg Prod.fst h, congrArg Prod.snd h⟩
  · show (List.map _ _).length = _
    rw [List.length_map]
    exact calcRanksMvAux_length [] lb 0 1 1 none

/-- Witness for C7 on a one-entry leaderboard with a missing snapshot. -/
theorem C7_snapshot_fallback_witness :
    (Overall.ROEntry.mk "a" 1 1 1 "N" "N").denseMv = "N" ∧
    (Overall.ROEntry.mk "a" 1 1 1 "N" "N").stdMv = "N" :=
  (C7_snapshot_fallback [⟨"a", 1⟩]).1 (Overall.ROEntry.mk "a" 1 1 1 "N" "N")
    (by decide)

end MovementProofs

section SequenceProofs

/-- C6: a washed-out match (at least one record, every recorded points value
zero) contributes no entry to any participant sequence: deleting it from the
match list leaves every sequence unchanged, hence both streak scans report
identical longest runs with and without it. -/
theorem C6_washout_excluded :
    ∀ (pre post : List Winners.SMatch) (m : Winners.SMatch) (u : String),
      Winners.is_washed_out_match m = true →
      Winners.buildSeq (pre ++ m :: post) u = Winners.buildSeq (pre ++ post) u ∧
      Winners.winStreakLen (Winners.buildSeq (pre ++ m :: post) u) =
        Winners.winStreakLen (Winners.buildSeq (pre ++ post) u) ∧
      Winners.loseStreakLen (Winners.buildSeq (pre ++ m :: post) u) =
        Winners.loseStreakLen (Winners.buildSeq (pre ++ post) u) := by
  intro pre post m u hw
  have heq : Winners.buildSeq (pre ++ m :: post) u =
      Winners.buildSeq (pre ++ post) u := by
    rw [Winners.buildSeq, Winners.buildSeq, List.foldl_append, List.foldl_append,
      List.foldl_cons, hw]
    simp
  exact ⟨heq, by rw [heq], by rw [heq]⟩

/-- Witness for C6: a one-record all-zero match contributes nothing. -/
theorem C6_washout_excluded_witness :
    Winners.buildSeq ([] ++ [("a", (0 : ℚ))] :: []) "a" =
      Winners.buildSeq ([] ++ []) "a" :=
  (C6_washout_excluded [] [] [("a", 0)] "a" (by decide)).1

/-- A nonempty entry list of a match starts with a present entry. -/
lemma matchEntries_cons (m : Winners.SMatch) (u : String)
    (h : Winners.matchEntries m u ≠ []) :
    ∃ q rest, Winners.matchEntries m u = some q :: rest := by
  rw [Winners.matchEntries] at h ⊢
  cases hf : m.filter (fun r => r.1 == u) with
  | nil => rw [hf] at h; exact absurd rfl h
  | cons r l => exact ⟨r.2, _, rfl⟩

/-- A sequence never seen yet stays empty over matches the user misses. -/
lemma buildSeq_nil_of_no_entries (u : String) : ∀ (pre : List Winners.SMatch),
    (∀ m ∈ pre, Winners.matchEntries m u = []) → Winners.buildSeq pre u = [] := by
  intro pre
  induction pre with
  | nil => intro h; rfl
  | cons m rest ih =>
    intro h
    have hm : Winners.matchEntries m u = [] := h m (List.mem_cons_self m rest)
    have hrest : ∀ m2 ∈ rest, Winners.matchEntries m2 u = [] :=
      fun m2 hm2 => h m2 (List.mem_cons_of_mem m hm2)
    have h0 : (if Winners.is_washed_out_match m then ([] : List (Option ℚ))
        else Winners.stepSeq u [] m) = [] := by
      by_cases hw : Winners.is_washed_out_match m
      · simp [hw]
      · simp [hw, Winners.stepSeq, hm]
    rw [Winners.buildSeq, List.foldl_cons, h0]
    exact ih hrest

/-- The invariant of the sequence builder: a sequence is empty or starts
with a present entry. -/
lemma buildSeq_head_inv (u : String) : ∀ (ms : List Winners.SMatch)
    (acc : List (Option ℚ)),
    (acc = [] ∨ ∃ q rest, acc = some q :: rest) →
    (ms.foldl (fun acc m => if Winners.is_washed_out_match m then acc
        else Winners.stepSeq u acc m) acc = [] ∨
     ∃ q rest, ms.foldl (fun acc m => if Winners.is_washed_out_match m then acc
        else Winners.stepSeq u acc m) acc = some q :: rest) := by
  intro ms
  induction ms with
  | nil => intro acc h; exact h
  | cons m rest ih =>
    intro acc h
    rw [List.foldl_cons]
    apply ih
    by_cases hw : Winners.is_washed_out_match m
    · simpa [hw] using h
    · simp only [hw, if_neg, Bool.false_eq_true, not_false_eq_true, if_false]
      rw [Winners.stepSeq]
      by_cases he : (Winners.matchEntries m u).isEmpty
      · rcases h with h0 | ⟨q, rest2, hqr⟩
        · simp [he, h0]
        · simp only [he, if_true, hqr]
          right
          exact ⟨q, rest2 ++ [none], by simp⟩
      · obtain ⟨q, es, hes⟩ := matchEntries_cons m u (by
          intro hnil
          rw [hnil] at he
          exact he rfl)
        rcases h with h0 | ⟨q2, rest2, hqr⟩
        · simp only [he, if_false, h0, List.nil_append, hes]
          exact Or.inr ⟨q, es, rfl⟩
        · simp only [he, if_false, hqr]
          exact Or.inr ⟨q2, rest2 ++ Winners.matchEntries m u, by simp⟩

/-- C10: a participant sequence begins only at the first recorded
participation: matches the participant misses before ever appearing add no
entry (deleting such a leading block leaves the sequence unchanged), and a
nonempty sequence always starts with a present entry, never with a
synthesized absent marker. -/
theorem C10_seq_starts_at_first_appearance :
    (∀ (u : String) (pre post : List Winners.SMatch),
       (∀ m ∈ pre, Winners.matchEntries m u = []) →
       Winners.buildSeq (pre ++ post) u = Winners.buildSeq post u) ∧
    (∀ (ms : List Winners.SMatch) (u : String),
       Winners.buildSeq ms u = [] ∨
       ∃ q rest, Winners.buildSeq ms u = some q :: rest) := by
  constructor
  · intro u pre post h
    have h0 : Winners.buildSeq pre u = [] := buildSeq_nil_of_no_entries u pre h
    rw [Winners.buildSeq] at h0 ⊢
    rw [List.foldl_append, h0]
    rfl
  · intro ms u
    exact buildSeq_head_inv u ms [] (Or.inl rfl)

/-- Witness for C10: a leading match without the user contributes nothing. -/
theorem C10_seq_starts_at_first_appearance_witness :
    Winners.buildSeq ([[("a", (1 : ℚ))]] ++ [[("b", (1 : ℚ))]]) "b" =
      Winners.buildSeq [[("b", (1 : ℚ))]] "b" :=
  C10_seq_starts_at_first_appearance.1 "b" [[("a", 1)]] [[("b", 1)]] (by decide)

end SequenceProofs

section SnapshotWriteProofs

/-- C9 (failing behaviour): the snapshot write opens the file in write mode,
truncating it in place, before the dump runs; a run failing right after the
truncation leaves the store holding an empty snapshot, which is neither the
previous complete snapshot nor the new complete one, so the write is not
atomic with respect to failure. -/
theorem C9_snapshot_write_not_atomic :
    Overall.snapshotWriteStates (some "old") "new" 1 = some "" ∧
    Overall.snapshotWriteStates (some "old") "new" 1 ≠ some "old" ∧
    Overall.snapshotWriteStates (some "old") "new" 1 ≠ some "new" := by
  decide

end SnapshotWriteProofs

section CombineProofs

/-- The row loop never changes all_usernames. -/
lemma foldl_stepRow_seen (n : ℕ) : ∀ (m : Weekly.MatchFile) (st : Weekly.CState),
    (m.foldl (Weekly.stepRow n) st).seen = st.seen := by
  intro m
  induction m with
  | nil => intro st; rfl
  | cons r m ih => intro st; rw [List.foldl_cons]; exact ih _

/-- Applying a row keeps every existing match column present. -/
lemma applyRow_isSome (n : ℕ) (r : Weekly.Row) (d : Weekly.UserData) (k : ℕ)
    (h : ((d.matchCol k).isSome) = true) :
    (((Weekly.applyRow n r d).matchCol k).isSome) = true := by
  by_cases hk : k = n
  · simp [Weekly.applyRow, hk]
  · simpa [Weekly.applyRow, hk] using h

/-- Backfilling keeps every existing match column present. -/
lemma fillCol_isSome (n : ℕ) (d : Weekly.UserData) (k : ℕ)
    (h : ((d.matchCol k).isSome) = true) :
    (((Weekly.fillCol n d).matchCol k).isSome) = true := by
  by_cases hk : k = n
  · simp [Weekly.fillCol, hk]
  · simpa [Weekly.fillCol, hk] using h

/-- Unfolding of the per-user record after one row of the row loop. -/
lemma stepRow_data (n : ℕ) (st : Weekly.CState) (r : Weekly.Row) (u : String) :
    ((Weekly.stepRow n st r).data u) =
      if u = r.username then Weekly.applyRow n r (st.data u) else st.data u := rfl

/-- The row loop keeps every existing match column present. -/
lemma foldl_stepRow_isSome (n : ℕ) : ∀ (m : Weekly.MatchFile) (st : Weekly.CState)
    (u : String) (k : ℕ),
    (((st.data u).matchCol k).isSome) = true →
    ((((m.foldl (Weekly.stepRow n) st).data u).matchCol k).isSome) = true := by
  intro m
  induction m with
  | nil => intro st u k h; exact h
  | cons r m ih =>
    intro st u k h
    rw [List.foldl_cons]
    apply ih
    rw [stepRow_data]
    by_cases hu : u = r.username
    · rw [if_pos hu]; exact applyRow_isSome n r (st.data u) k h
    · rw [if_neg hu]; exact h

/-- Unfolding of the per-user record after a whole match. -/
lemma processMatch_data (n : ℕ) (st : Weekly.CState) (m : Weekly.MatchFile)
    (u : String) :
    (Weekly.processMatch n st m).data u =
      (if u ∈ (Weekly.processMatch n st m).seen then
        (if ((m.foldl (Weekly.stepRow n) st).data u).matchCol n = none
         then Weekly.fillCol n ((m.foldl (Weekly.stepRow n) st).data u)
         else (m.foldl (Weekly.stepRow n) st).data u)
       else (m.foldl (Weekly.stepRow n) st).data u) := rfl

/-- Processing a match keeps every existing match column present. -/
lemma processMatch_isSome (n : ℕ) (st : Weekly.CState) (m : Weekly.MatchFile)
    (u : String) (k : ℕ)
    (h : (((st.data u).matchCol k).isSome) = true) :
    ((((Weekly.processMatch n st m).data u).matchCol k).isSome) = true := by
  have h1 := foldl_stepRow_isSome n m st u k h
  rw [processMatch_data]
  split_ifs with h2 h3
  · exact fillCol_isSome n _ k h1
  · exact h1
  · exact h1

/-- The match loop keeps every existing match column present. -/
lemma combineAux_isSome : ∀ (l : List Weekly.MatchFile) (n : ℕ) (st : Weekly.CState)
    (u : String) (k : ℕ),
    (((st.data u).matchCol k).isSome) = true →
    ((((Weekly.combineAux n st l).data u).matchCol k).isSome) = true := by
  intro l
  induction l with
  | nil => intro n st u k h; exact h
  | cons m rest ih =>
    intro n st u k h
    exact ih (n + 1) _ u k (processMatch_isSome n st m u k h)

/-- A user with a row in the match gets the current column from the row loop. -/
lemma foldl_stepRow_sets (n : ℕ) : ∀ (m : Weekly.MatchFile) (st : Weekly.CState)
    (u : String), u ∈ m.map Weekly.Row.username →
    ((((m.foldl (Weekly.stepRow n) st).data u).matchCol n).isSome) = true := by
  intro m
  induction m with
  | nil => intro st u h; cases h
  | cons r m ih =>
    intro st u h
    rw [List.map_cons] at h
    rcases List.mem_cons.mp h with hu | hu
    · rw [List.foldl_cons]
      apply foldl_stepRow_isSome
      rw [stepRow_data, if_pos hu]
      simp [Weekly.applyRow]
    · rw [List.foldl_cons]; exact ih _ u hu

/-- Membership in the updated all_usernames after a match. -/
lemma mem_processMatch_seen (n : ℕ) (st : Weekly.CState) (m : Weekly.MatchFile)
    (u : String) (h : u ∈ st.seen ∨ u ∈ m.map Weekly.Row.username) :
    u ∈ (Weekly.processMatch n st m).seen := by
  show u ∈ (m.foldl (Weekly.stepRow n) st).seen ++
    (m.map Weekly.Row.username).filter
      (fun v => decide (v ∉ (m.foldl (Weekly.stepRow n) st).seen))
  rcases h with h | h
  · apply List.mem_append_left
    rw [foldl_stepRow_seen]
    exact h
  · by_cases h2 : u ∈ (m.foldl (Weekly.stepRow n) st).seen
    · exact List.mem_append_left _ h2
    · apply List.mem_append_right
      rw [List.mem_filter]
      exact ⟨h, decide_eq_true h2⟩

/-- Processing a match as match n gives every already-known user and every
participant of the match a present column n. -/
lemma processMatch_sets (n : ℕ) (st : Weekly.CState) (m : Weekly.MatchFile)
    (u : String) (h : u ∈ st.seen ∨ u ∈ m.map Weekly.Row.username) :
    ((((Weekly.processMatch n st m).data u).matchCol n).isSome) = true := by
  have hmem : u ∈ (Weekly.processMatch n st m).seen := mem_processMatch_seen n st m u h
  rw [processMatch_data, if_pos hmem]
  by_cases hc : ((m.foldl (Weekly.stepRow n) st).data u).matchCol n = none
  · rw [if_pos hc]
    simp [Weekly.fillCol]
  · rw [if_neg hc]
    exact Option.ne_none_iff_isSome.mp hc

/-- Every user already known before the block keeps getting columns: from n
on, every column of the processed block is present. -/
lemma combineAux_sets_from_seen : ∀ (l : List Weekly.MatchFile) (n : ℕ)
    (st : Weekly.CState) (u : String), u ∈ st.seen →
    ∀ i, n ≤ i → i < n + l.length →
    ((((Weekly.combineAux n st l).data u).matchCol i).isSome) = true := by
  intro l
  induction l with
  | nil =>
    intro n st u hu i h1 h2
    exact absurd h2 (by simp only [List.length_nil]; omega)
  | cons m rest ih =>
    intro n st u hu i h1 h2
    have h2' : i < n + (rest.length + 1) := by simpa using h2
    by_cases hi : i = n
    · subst hi
      exact combineAux_isSome rest (i + 1) _ u i
        (processMatch_sets i st m u (Or.inl hu))
    · exact ih (n + 1) _ u (mem_processMatch_seen n st m u (Or.inl hu)) i
        (by omega) (by omega)

/-- A participant of the first match of a block has every column of the
block present. -/
lemma combineAux_sets_from_match (post : List Weekly.MatchFile) (n : ℕ)
    (st : Weekly.CState) (m : Weekly.MatchFile) (u : String)
    (hu : u ∈ m.map Weekly.Row.username) :
    ∀ i, n ≤ i → i < n + 1 + post.length →
    ((((Weekly.combineAux n st (m :: post)).data u).matchCol i).isSome) = true := by
  intro i h1 h2
  by_cases hi : i = n
  · subst hi
    exact combineAux_isSome post (i + 1) _ u i
      (processMatch_sets i st m u (Or.inr hu))
  · exact combineAux_sets_from_seen post (n + 1) _ u
      (mem_processMatch_seen n st m u (Or.inr hu)) i (by omega) (by omega)

/-- Splitting the match loop over an append. -/
lemma combineAux_append : ∀ (l1 l2 : List Weekly.MatchFile) (n : ℕ)
    (st : Weekly.CState),
    Weekly.combineAux n st (l1 ++ l2) =
      Weekly.combineAux (n + l1.length) (Weekly.combineAux n st l1) l2 := by
  intro l1
  induction l1 with
  | nil => intro l2 n st; simp [Weekly.combineAux]
  | cons m l1 ih =>
    intro l2 n st
    show Weekly.combineAux (n + 1) (Weekly.processMatch n st m) (l1 ++ l2) = _
    rw [ih]
    have h3 : n + 1 + l1.length = n + (l1.length + 1) := by omega
    rw [h3]
    rfl

/-- C3 (amended): every participant who appears in some match of the period
has, from that match on, a present value for every remaining sub-period of
the period (a real or synthesized default value, never a missing column). -/
theorem C3_columns_from_first_appearance :
    ∀ (pre : List Weekly.MatchFile) (m : Weekly.MatchFile)
      (post : List Weekly.MatchFile) (u : String),
      u ∈ m.map Weekly.Row.username →
      ∀ i, pre.length + 1 ≤ i → i ≤ pre.length + 1 + post.length →
      ((((Weekly.combineState (pre ++ m :: post)).data u).matchCol i).isSome)
        = true := by
  intro pre m post u hu i h1 h2
  rw [Weekly.combineState, combineAux_append]
  exact combineAux_sets_from_match post (1 + pre.length) _ m u hu i
    (by omega) (by omega)

/-- Witness for C3 amended: user a of match 1 of a two-match week has the
backfilled column for match 2 present. -/
theorem C3_columns_from_first_appearance_witness :
    (((Weekly.combineState ([] ++ [Weekly.Row.mk "a" "a" "CSK" (some 1)] ::
        [[Weekly.Row.mk "b" "b" "MI" (some 1)]])).data "a").matchCol 2).isSome
      = true :=
  C3_columns_from_first_appearance [] [Weekly.Row.mk "a" "a" "CSK" (some 1)]
    [[Weekly.Row.mk "b" "b" "MI" (some 1)]] "a" (by decide) 2 (by decide)
    (by decide)

/-- Counterexample to C3 as stated: user b appears in match 2 of a two-match
week, yet their row has no value at all for sub-period 1 (the aggregator
never backfills columns of matches before the first appearance). -/
theorem C3_counterexample :
    "b" ∈ (List.map Weekly.Row.username [Weekly.Row.mk "b" "b" "MI" (some 1)]) ∧
    ((Weekly.combineState [[Weekly.Row.mk "a" "a" "CSK" (some 1)],
        [Weekly.Row.mk "b" "b" "MI" (some 1)]]).data "b").matchCol 1 = none := by
  decide

end CombineProofs

section TotalProofs

/-- A user without any row in the match is untouched by the row loop. -/
lemma foldl_stepRow_other (n : ℕ) : ∀ (m : Weekly.MatchFile) (st : Weekly.CState)
    (u : String), (∀ r ∈ m, r.username ≠ u) →
    ((m.foldl (Weekly.stepRow n) st).data u) = st.data u := by
  intro m
  induction m with
  | nil => intro st u h; rfl
  | cons r m ih =>
    intro st u h
    rw [List.foldl_cons, ih _ u (fun r2 h2 => h r2 (List.mem_cons_of_mem r h2)),
      stepRow_data, if_neg (fun he => h r (List.mem_cons_self r m) he.symm)]

/-- Under per-match uniqueness of usernames, the row loop applies exactly the
unique row of a participating user to that user. -/
lemma foldl_stepRow_unique (n : ℕ) : ∀ (m : Weekly.MatchFile) (st : Weekly.CState)
    (u : String) (r : Weekly.Row),
    (m.map Weekly.Row.username).Nodup → r ∈ m → r.username = u →
    ((m.foldl (Weekly.stepRow n) st).data u) = Weekly.applyRow n r (st.data u) := by
  intro m
  induction m with
  | nil => intro st u r _ hr _; cases hr
  | cons r0 m ih =>
    intro st u r hnd hr hru
    rw [List.map_cons, List.nodup_cons] at hnd
    rcases List.mem_cons.mp hr with he | he
    · subst he
      rw [List.foldl_cons]
      have hother : ∀ r2 ∈ m, r2.username ≠ u := by
        intro r2 h2 hc
        apply hnd.1
        have hmem : r2.username ∈ List.map Weekly.Row.username m :=
          List.mem_map_of_mem Weekly.Row.username h2
        rw [hru, ← hc]
        exact hmem
      rw [foldl_stepRow_other n m _ u hother, stepRow_data, if_pos hru.symm]
    · rw [List.foldl_cons]
      have h0 : r0.username ≠ u := by
        intro hc
        apply hnd.1
        rw [hc, ← hru]
        exact List.mem_map_of_mem Weekly.Row.username he
      rw [ih _ u r hnd.2 he hru, stepRow_data, if_neg (fun hh => h0 hh.symm)]

/-- The backfill phase never changes a total. -/
lemma processMatch_total (n : ℕ) (st : Weekly.CState) (m : Weekly.MatchFile)
    (u : String) :
    ((Weekly.processMatch n st m).data u).total =
      ((m.foldl (Weekly.stepRow n) st).data u).total := by
  rw [processMatch_data]
  split_ifs <;> rfl

/-- The row loop of match n never changes another match column. -/
lemma foldl_stepRow_matchCol_ne (n : ℕ) : ∀ (m : Weekly.MatchFile)
    (st : Weekly.CState) (u : String) (k : ℕ), k ≠ n →
    (((m.foldl (Weekly.stepRow n) st).data u).matchCol k) =
      ((st.data u).matchCol k) := by
  intro m
  induction m with
  | nil => intro st u k hk; rfl
  | cons r m ih =>
    intro st u k hk
    rw [List.foldl_cons, ih _ u k hk, stepRow_data]
    by_cases hu : u = r.username
    · rw [if_pos hu]; simp [Weekly.applyRow, hk]
    · rw [if_neg hu]

/-- Processing match n never changes another match column. -/
lemma processMatch_matchCol_ne (n : ℕ) (st : Weekly.CState) (m : Weekly.MatchFile)
    (u : String) (k : ℕ) (hk : k ≠ n) :
    (((Weekly.processMatch n st m).data u).matchCol k) =
      ((st.data u).matchCol k) := by
  have hrow := foldl_stepRow_matchCol_ne n m st u k hk
  rw [processMatch_data]
  split_ifs
  · simpa [Weekly.fillCol, hk] using hrow
  · exact hrow
  · exact hrow

/-- The match loop starting at n never changes a column below n. -/
lemma combineAux_matchCol_lo : ∀ (l : List Weekly.MatchFile) (n : ℕ)
    (st : Weekly.CState) (u : String) (k : ℕ), k < n →
    (((Weekly.combineAux n st l).data u).matchCol k) =
      ((st.data u).matchCol k) := by
  intro l
  induction l with
  | nil => intro n st u k hk; rfl
  | cons m rest ih =>
    intro n st u k hk
    show (((Weekly.combineAux (n + 1) (Weekly.processMatch n st m) rest).data
      u).matchCol k) = _
    rw [ih (n + 1) _ u k (by omega)]
    exact processMatch_matchCol_ne n st m u k (by omega)

/-- Processing match n keeps a later column absent. -/
lemma processMatch_matchCol_hi_none (n : ℕ) (st : Weekly.CState)
    (m : Weekly.MatchFile) (u : String) (k : ℕ) (hk : n < k)
    (h : (st.data u).matchCol k = none) :
    ((Weekly.processMatch n st m).data u).matchCol k = none := by
  rw [processMatch_matchCol_ne n st m u k (by omega)]
  exact h

/-- One match adds to the total exactly the points value the user ends up
holding in the new column: the recorded points of their unique row, or zero
when the column is synthesized or left untouched. -/
lemma processMatch_total_col (n : ℕ) (st : Weekly.CState) (m : Weekly.MatchFile)
    (u : String) (hnd : (m.map Weekly.Row.username).Nodup)
    (hcol : (st.data u).matchCol n = none) :
    ((Weekly.processMatch n st m).data u).total =
      (st.data u).total +
        Weekly.colPoints ((Weekly.processMatch n st m).data u) n := by
  by_cases h : ∃ r ∈ m, r.username = u
  · obtain ⟨r, hr, hru⟩ := h
    have hst1 : ((m.foldl (Weekly.stepRow n) st).data u) =
        Weekly.applyRow n r (st.data u) :=
      foldl_stepRow_unique n m st u r hnd hr hru
    have hcoln : ((m.foldl (Weekly.stepRow n) st).data u).matchCol n =
        some (r.team, Weekly.parsePoints r.points) := by
      rw [hst1]; simp [Weekly.applyRow]
    have hdata : (Weekly.processMatch n st m).data u =
        (m.foldl (Weekly.stepRow n) st).data u := by
      rw [processMatch_data]
      split_ifs with h1 h2
      · rw [hcoln] at h2; cases h2
      · rfl
      · rfl
    rw [hdata, hst1]
    simp [Weekly.applyRow, Weekly.colPoints]
  · push_neg at h
    have hst1 : ((m.foldl (Weekly.stepRow n) st).data u) = st.data u :=
      foldl_stepRow_other n m st u h
    have htot : ((Weekly.processMatch n st m).data u).total =
        (st.data u).total := by
      rw [processMatch_total, hst1]
    have hcp : Weekly.colPoints ((Weekly.processMatch n st m).data u) n = 0 := by
      rw [processMatch_data]
      split_ifs with h1 h2
      · simp [Weekly.fillCol, Weekly.colPoints]
      · rw [hst1] at h2; exact absurd hcol h2
      · simp [Weekly.colPoints, hst1, hcol]
    rw [htot, hcp, add_zero]

/-- Folding additions from an accumulator is the accumulator plus the sum. -/
lemma foldl_add_eq_sum (f : String → ℚ) : ∀ (l : List String) (a : ℚ),
    l.foldl (fun t c => t + f c) a = a + (l.map f).sum := by
  intro l
  induction l with
  | nil => intro a; simp
  | cons c l ih =>
    intro a
    rw [List.foldl_cons, ih, List.map_cons, List.sum_cons]
    ring

/-- Main total invariant of the match loop: starting from a state whose
columns from n on are all absent, the final total of a user is the starting
total plus the sum of the points values of all the columns the block
produced, read back from the final state. -/
lemma combineAux_total : ∀ (l : List Weekly.MatchFile) (n : ℕ)
    (st : Weekly.CState) (u : String),
    (∀ m ∈ l, (m.map Weekly.Row.username).Nodup) →
    (∀ k, n ≤ k → (st.data u).matchCol k = none) →
    ((Weekly.combineAux n st l).data u).total =
      (st.data u).total +
        ((List.range' n l.length).map
          (fun i => Weekly.colPoints ((Weekly.combineAux n st l).data u) i)).sum := by
  intro l
  induction l with
  | nil => intro n st u _ _; simp [Weekly.combineAux]
  | cons m rest ih =>
    intro n st u hnd hkeys
    have hnd0 : (m.map Weekly.Row.username).Nodup := hnd m (List.mem_cons_self m rest)
    have hndr : ∀ m2 ∈ rest, (m2.map Weekly.Row.username).Nodup :=
      fun m2 h2 => hnd m2 (List.mem_cons_of_mem m h2)
    have hcoln : (st.data u).matchCol n = none := hkeys n le_rfl
    have hstep := processMatch_total_col n st m u hnd0 hcoln
    have hkeys2 : ∀ k, n + 1 ≤ k →
        ((Weekly.processMatch n st m).data u).matchCol k = none :=
      fun k hk => processMatch_matchCol_hi_none n st m u k (by omega)
        (hkeys k (by omega))
    have ih2 := ih (n + 1) (Weekly.processMatch n st m) u hndr hkeys2
    show ((Weekly.combineAux (n + 1) (Weekly.processMatch n st m) rest).data
        u).total =
      (st.data u).total +
        ((List.range' n ((m :: rest).length)).map
          (fun i => Weekly.colPoints
            ((Weekly.combineAux (n + 1) (Weekly.processMatch n st m) rest).data
              u) i)).sum
    have hrange : List.range' n ((m :: rest).length) =
        n :: List.range' (n + 1) rest.length := by
      simp [List.range'_succ]
    rw [ih2, hrange, List.map_cons, List.sum_cons]
    have hfinal_n : Weekly.colPoints
        ((Weekly.combineAux (n + 1) (Weekly.processMatch n st m) rest).data u) n =
        Weekly.colPoints ((Weekly.processMatch n st m).data u) n := by
      have hmc := combineAux_matchCol_lo rest (n + 1)
        (Weekly.processMatch n st m) u n (by omega)
      unfold Weekly.colPoints
      rw [hmc]
    rw [hfinal_n, hstep]
    ring

/-- C4: the Total field of every output row is recomputed as exactly the sum
of the points values of the sub-period columns of that row: for the weekly
aggregator under the data-model precondition of one record per participant
per match, and unconditionally for the season aggregator. -/
theorem C4_total_eq_sum :
    (∀ ms : List Weekly.MatchFile,
       (∀ m ∈ ms, (m.map Weekly.Row.username).Nodup) →
       ∀ u, ((Weekly.combineState ms).data u).total =
         ((List.range' 1 ms.length).map
           (fun i => Weekly.colPoints ((Weekly.combineState ms).data u) i)).sum) ∧
    (∀ (cols : List String) (get : String → Option ℚ),
       (Overall.buildSeasonEntry cols get).2 =
         (((Overall.buildSeasonEntry cols get).1).map Prod.snd).sum) := by
  constructor
  · intro ms h u
    have hmain := combineAux_total ms 1 Weekly.initState u h (fun k _ => rfl)
    rw [Weekly.combineState]
    simpa [Weekly.initState, Weekly.defaultUD] using hmain
  · intro cols get
    show cols.foldl (fun t c => t + (get c).getD 0) 0 =
      ((cols.map (fun c => (c, (get c).getD 0))).map Prod.snd).sum
    rw [foldl_add_eq_sum (fun c => (get c).getD 0) cols 0, List.map_map, zero_add]
    rfl

/-- Witness for C4 on a one-match week with one row of three points. -/
theorem C4_total_eq_sum_witness :
    ((Weekly.combineState [[Weekly.Row.mk "a" "a" "CSK" (some 3)]]).data
        "a").total =
      ((List.range' 1 [[Weekly.Row.mk "a" "a" "CSK" (some 3)]].length).map
        (fun i => Weekly.colPoints
          ((Weekly.combineState [[Weekly.Row.mk "a" "a" "CSK" (some 3)]]).data
            "a") i)).sum :=
  C4_total_eq_sum.1 [[Weekly.Row.mk "a" "a" "CSK" (some 3)]] (by decide) "a"

end TotalProofs

section NonnegProofs

/-- The row loop stores only parsed row values: under non-negative parsed
fields it preserves non-negativity of every stored column value. -/
lemma foldl_stepRow_nonneg (n : ℕ) : ∀ (m : Weekly.MatchFile) (st : Weekly.CState),
    (∀ r ∈ m, 0 ≤ Weekly.parsePoints r.points) →
    (∀ u k t q, (st.data u).matchCol k = some (t, q) → 0 ≤ q) →
    ∀ u k t q, ((m.foldl (Weekly.stepRow n) st).data u).matchCol k = some (t, q) →
      0 ≤ q := by
  intro m
  induction m with
  | nil => intro st _ hinv; exact hinv
  | cons r m ih =>
    intro st hm hinv
    rw [List.foldl_cons]
    apply ih _ (fun r2 h2 => hm r2 (List.mem_cons_of_mem r h2))
    intro u k t q hq
    rw [stepRow_data] at hq
    by_cases hu : u = r.username
    · rw [if_pos hu] at hq
      by_cases hk : k = n
      · simp [Weekly.applyRow, hk] at hq
        rcases hq with ⟨-, rfl⟩
        exact hm r (List.mem_cons_self r m)
      · simp [Weekly.applyRow, hk] at hq
        exact hinv u k t q hq
    · rw [if_neg hu] at hq
      exact hinv u k t q hq

/-- Processing a whole match preserves non-negativity of stored values: the
backfill stores zero and the rows store parsed values. -/
lemma processMatch_nonneg (n : ℕ) (st : Weekly.CState) (m : Weekly.MatchFile)
    (hm : ∀ r ∈ m, 0 ≤ Weekly.parsePoints r.points)
    (hinv : ∀ u k t q, (st.data u).matchCol k = some (t, q) → 0 ≤ q) :
    ∀ u k t q, ((Weekly.processMatch n st m).data u).matchCol k = some (t, q) →
      0 ≤ q := by
  intro u k t q hq
  have hrow := foldl_stepRow_nonneg n m st hm hinv
  rw [processMatch_data] at hq
  split_ifs at hq with h1 h2
  · by_cases hk : k = n
    · simp [Weekly.fillCol, hk] at hq
      rcases hq with ⟨-, rfl⟩
      norm_num
    · simp [Weekly.fillCol, hk] at hq
      exact hrow u k t q hq
  · exact hrow u k t q hq
  · exact hrow u k t q hq

/-- The full match loop preserves non-negativity of stored values. -/
lemma combineAux_nonneg : ∀ (l : List Weekly.MatchFile) (n : ℕ)
    (st : Weekly.CState),
    (∀ m ∈ l, ∀ r ∈ m, 0 ≤ Weekly.parsePoints r.points) →
    (∀ u k t q, (st.data u).matchCol k = some (t, q) → 0 ≤ q) →
    ∀ u k t q, ((Weekly.combineAux n st l).data u).matchCol k = some (t, q) →
      0 ≤ q := by
  intro l
  induction l with
  | nil => intro n st _ hinv; exact hinv
  | cons m rest ih =>
    intro n st hl hinv
    exact ih (n + 1) _ (fun m2 h2 => hl m2 (List.mem_cons_of_mem m h2))
      (processMatch_nonneg n st m (hl m (List.mem_cons_self m rest)) hinv)

/-- C8 (amended): a missing or unparseable points field coerces to zero, and
whenever every parsed points field of the input is non-negative, every
stored sub-period value of every user is non-negative; the aggregator stores
a parseable field value as is, without clamping. -/
theorem C8_points_nonneg :
    Weekly.parsePoints none = 0 ∧
    (∀ ms : List Weekly.MatchFile,
       (∀ m ∈ ms, ∀ r ∈ m, 0 ≤ Weekly.parsePoints r.points) →
       ∀ u k t q, ((Weekly.combineState ms).data u).matchCol k = some (t, q) →
         0 ≤ q) := by
  refine ⟨rfl, ?_⟩
  intro ms h
  exact combineAux_nonneg ms 1 Weekly.initState h
    (fun u k t q hq => by simp [Weekly.initState, Weekly.defaultUD] at hq)

/-- Witness for C8 on a one-row week holding three points. -/
theorem C8_points_nonneg_witness :
    ((Weekly.combineState [[Weekly.Row.mk "a" "a" "CSK" (some 3)]]).data
        "a").matchCol 1 = some ("CSK", 3) ∧ (0 : ℚ) ≤ 3 :=
  ⟨by decide,
   C8_points_nonneg.2 [[Weekly.Row.mk "a" "a" "CSK" (some 3)]] (by decide)
     "a" 1 "CSK" 3 (by decide)⟩

/-- Counterexample to C8 as stated: a parseable negative points field is
stored as is, so a stored sub-period value can be negative. -/
theorem C8_counterexample :
    ((Weekly.combineState [[Weekly.Row.mk "a" "a" "CSK" (some (-1))]]).data
        "a").matchCol 1 = some ("CSK", -1) ∧ ((-1 : ℚ) < 0) := by
  decide

end NonnegProofs
